import Mathlib

/-!
Verification of the PDF MCP server (`server.py`).

The four public operations are embedded shallowly:

* `get_smart_chunks`  — the chunk-planning loop (`planLoop` / `chunkScan` / `nextPage`);
* `extract_text_from_pages` — ranged text extraction (`extractGo`);
* `search_pdf` — case-insensitive substring search (`searchGo` / `searchPage` / `strFind`);
* `get_pdf_metadata` — metadata extraction.

A document is a list of page texts (lists of characters), together with the
optional metadata dictionary, the encryption flag and the file size; the
filesystem is a partial map from paths to documents.  The planner consumes the
pages only through `len(page.extract_text() or "")`, so it is embedded over the
list of per-page character counts.  The `while` loop of the planner is embedded
with explicit fuel since its termination is one of the properties under study:
`none` means the fuel ran out (the Python loop is still running), `some r`
means the Python function returned `r`.
-/

namespace PdfServer

/-- A chunk record as produced by `get_smart_chunks` (server.py:203-208).
`start_page`/`end_page` are integers because the advance step of the loop can
drive `current_page` to zero or below. -/
structure Chunk where
  chunk_number : Nat
  start_page : Int
  end_page : Int
  estimated_chars : Nat
deriving DecidableEq

/-- Python-style list indexing (`pdf.pages[page_num]`): a negative index counts
from the end of the list, an index out of range raises `IndexError` (`none`). -/
def pyGet (l : List Nat) (i : Int) : Option Nat :=
  let j : Int := if i < 0 then (l.length : Int) + i else i
  if 0 ≤ j then l.get? j.toNat else none

/-- Python `range(a, b)` over integers. -/
def intRange (a b : Int) : List Int :=
  (List.range (b - a).toNat).map (fun k : Nat => a + (k : Int))

/-- The inner `for page_num in range(current_page - 1, total_pages)` loop of
`get_smart_chunks` (server.py:193-201).  `lens` is the list of per-page text
lengths, `cp` is `current_page`; the accumulator carries `test_chars` and
`end_page`.  A break returns the pair accumulated so far; an out-of-range page
access is the `IndexError` the surrounding `try` turns into an error result. -/
def chunkScan (lens : List Nat) (maxc : Nat) (cp : Int) :
    List Int → Nat → Int → Except String (Nat × Int)
  | [], test, ep => .ok (test, ep)
  | i :: rest, test, ep =>
    match pyGet lens i with
    | none => .error "list index out of range"
    | some len =>
      if test + len > maxc ∧ ep > cp then .ok (test, ep)
      else chunkScan lens maxc cp rest (test + len) (i + 1)

/-- The advance step of the planner (server.py:210-213):
`current_page = end_page + 1 - overlap_pages`, then the (dead) safeguard
`if current_page <= end_page - overlap_pages: current_page = end_page + 1`. -/
def nextPage (ep : Int) (ov : Nat) : Int :=
  let c : Int := ep + 1 - (ov : Int)
  if c ≤ ep - (ov : Int) then ep + 1 else c

/-- The outer `while current_page <= total_pages` loop of `get_smart_chunks`
(server.py:188-214), with fuel.  `none` = the fuel ran out (loop still
running); `some (.error e)` = an exception was caught; `some (.ok acc)` = the
loop exited normally with the accumulated chunk list. -/
def planLoop (lens : List Nat) (maxc : Nat) (ov : Nat) :
    Nat → Int → Nat → List Chunk → Option (Except String (List Chunk))
  | 0, _, _, _ => none
  | fuel + 1, cp, cn, acc =>
    if cp ≤ (lens.length : Int) then
      match chunkScan lens maxc cp (intRange (cp - 1) (lens.length : Int)) 0 cp with
      | .error e => some (.error e)
      | .ok (test, ep) =>
        planLoop lens maxc ov fuel (nextPage ep ov) (cn + 1) (acc ++ [⟨cn, cp, ep, test⟩])
    else some (.ok acc)

/-- The per-page character counts of the 10-page example document: pages 1-5
hold 6000 characters each, pages 6-10 hold 1000 characters each. -/
def lens10 : List Nat :=
  [6000, 6000, 6000, 6000, 6000, 1000, 1000, 1000, 1000, 1000]

example : planLoop lens10 10000 0 20 1 1 [] =
    some (.ok [⟨1, 1, 2, 12000⟩, ⟨2, 3, 4, 12000⟩, ⟨3, 5, 9, 10000⟩, ⟨4, 10, 10, 1000⟩]) := rfl

example : planLoop [0] 10 1 5 1 1 [] = none := rfl

example : planLoop [0] 10 2 6 1 1 [] = none := rfl

example : nextPage 1 2 = 0 := by decide

/-- A PDF document as seen through the pypdf/pdfplumber oracle: the extracted
text of each page (`page.extract_text() or ""`, so a blank page is the empty
string), the optional metadata dictionary (`reader.metadata`), the encryption
flag and the file size in bytes. -/
structure PdfDocument where
  pages : List (List Char)
  meta : Option (List (String × String))
  is_encrypted : Bool
  sizeBytes : Nat

/-- A filesystem: a partial map from paths to openable documents.  `none`
models `not path.exists()`. -/
def Fs := String → Option PdfDocument

/-- The result record of `get_pdf_metadata` (server.py:32-45), without the
derived floating-point `file_size_mb` field.  The four optional string fields
are `none` when the corresponding key is absent from the result dictionary. -/
structure MetaResult where
  file_size_bytes : Nat
  page_count : Nat
  is_encrypted : Bool
  title : Option String
  author : Option String
  subject : Option String
  creator : Option String
deriving DecidableEq

/-- Python truthiness of `reader.metadata`: `None` and the empty dictionary
are falsy. -/
def metaTruthy (m : Option (List (String × String))) : Bool :=
  match m with
  | none => false
  | some l => !l.isEmpty

/-- Python `reader.metadata.get(key, "")`. -/
def metaGet (l : List (String × String)) (k : String) : String :=
  (l.lookup k).getD ""

/-- Function `get_pdf_metadata` (server.py:22-49). -/
def get_pdf_metadata (fs : Fs) (path : String) : Except String MetaResult :=
  match fs path with
  | none => .error ("File not found: " ++ path)
  | some d =>
    let base : MetaResult :=
      { file_size_bytes := d.sizeBytes, page_count := d.pages.length,
        is_encrypted := d.is_encrypted,
        title := none, author := none, subject := none, creator := none }
    if metaTruthy d.meta then
      let l := d.meta.getD []
      .ok { base with
            title := some (metaGet l "/Title"), author := some (metaGet l "/Author"),
            subject := some (metaGet l "/Subject"), creator := some (metaGet l "/Creator") }
    else
      .ok base

/-- One entry of the `extracted_text` list of `extract_text_from_pages`
(server.py:85,91): the f-string `--- Page {n}[ (partial)] ---\n{text}`,
embedded as its page number, whether the `(partial)` marker is present
(`cut`), and the page text included after the marker. -/
structure Block where
  page : Nat
  cut : Bool
  content : List Char
deriving DecidableEq

/-- The truncation test of server.py:82,
`if max_chars and (total_chars + len(page_text)) > max_chars`: `max_chars`
must be truthy (set and nonzero) and the budget exceeded. -/
def truncCheck (maxc : Option Nat) (total len : Nat) : Bool :=
  match maxc with
  | none => false
  | some m => if m = 0 then false else decide (total + len > m)

/-- The running state produced by the extraction loop: `pages_processed`,
the characters added to `total_chars`, the text blocks, and the truncated
flag. -/
structure ExtractAcc where
  procd : Nat
  added : Nat
  blocks : List Block
  truncated : Bool
deriving DecidableEq

/-- The `for page_num in range(start_page - 1, end_page)` loop of
`extract_text_from_pages` (server.py:77-93), over the list of
(page number, page text) pairs of the requested range; `total` is the value
of `total_chars` on entry.  On truncation the page's text is cut to
`max_chars - total_chars` characters (Nat subtraction agrees with Python's
int subtraction here because every call site maintains `total ≤ max_chars`
when `max_chars` is truthy) and the loop breaks. -/
def extractGo (maxc : Option Nat) : List (Nat × List Char) → Nat → ExtractAcc
  | [], _ => ⟨0, 0, [], false⟩
  | (pn, t) :: rest, total =>
    if truncCheck maxc total t.length then
      let r := maxc.getD 0 - total
      ⟨1, r, [⟨pn, true, t.take r⟩], true⟩
    else
      let res := extractGo maxc rest (total + t.length)
      ⟨res.procd + 1, t.length + res.added, ⟨pn, false, t⟩ :: res.blocks, res.truncated⟩

/-- The requested page range as (page number, page text) pairs: pages
`sp .. ep` inclusive, 1-based.  Indices are in range at every call site
(`1 ≤ sp ≤ total` is validated and `ep ≤ total`), so the `getD` default is
never used. -/
def pageSlice (pages : List (List Char)) (sp ep : Nat) : List (Nat × List Char) :=
  (List.range' sp (ep + 1 - sp)).map (fun pn => (pn, (pages.get? (pn - 1)).getD []))

/-- The result record of `extract_text_from_pages` (server.py:95-106), with
the joined `text` kept as its list of blocks.  `note` is present exactly when
the `truncated` key is set. -/
structure ExtractOut where
  total_pages : Nat
  pages_requested : String
  pages_processed : Nat
  text_length_chars : Nat
  blocks : List Block
  truncated : Bool
  note : Option String
deriving DecidableEq

/-- The effective end page (server.py:66-69): `end_page` defaults to
`total_pages` when absent and is clamped to `total_pages` when larger. -/
def effEnd (total : Nat) (end_page : Option Nat) : Nat :=
  match end_page with
  | none => total
  | some e => if total < e then total else e

/-- Function `extract_text_from_pages` (server.py:52-111). -/
def extract_text_from_pages (fs : Fs) (path : String) (start_page : Nat)
    (end_page : Option Nat) (max_chars : Option Nat) : Except String ExtractOut :=
  match fs path with
  | none => .error ("File not found: " ++ path)
  | some d =>
    let total := d.pages.length
    if start_page < 1 ∨ total < start_page then
      .error ("Invalid start_page: " ++ toString start_page ++ ". PDF has " ++
        toString total ++ " pages.")
    else
      let ep := effEnd total end_page
      let res := extractGo max_chars (pageSlice d.pages start_page ep) 0
      .ok { total_pages := total,
            pages_requested := toString start_page ++ "-" ++ toString ep,
            pages_processed := res.procd,
            text_length_chars := res.added,
            blocks := res.blocks,
            truncated := res.truncated,
            note := if res.truncated then
              some ("Text truncated at " ++ toString (max_chars.getD 0) ++
                " characters. Use smaller page ranges or increase max_chars.")
            else none }

/-- One search match (server.py:147-151). -/
structure SMatch where
  page : Nat
  context : List Char
  position : Nat
deriving DecidableEq

/-- Python `haystack.find(needle, start)`: the least index `i ≥ start` with
`haystack[i : i + len(needle)] == needle` (so the empty needle matches at
every `i ≤ len(haystack)`), or `none` (-1) when there is no such index. -/
def strFind (hay needle : List Char) (start : Nat) : Option Nat :=
  (List.range (hay.length + 1)).find?
    (fun i => decide (start ≤ i) && needle.isPrefixOf (hay.drop i))

/-- The context extraction around a match at index `idx` (server.py:136-145):
`context_chars` characters each side, clipped at the page edges, with an
ellipsis marker on a side that was clipped by the budget rather than the page
edge.  `qlen` is `len(query)`. -/
def mkContext (hay : List Char) (qlen ctx idx : Nat) : List Char :=
  let cs := idx - ctx
  let ce := min hay.length (idx + qlen + ctx)
  let core := (hay.drop cs).take (ce - cs)
  let core' := if 0 < cs then '.' :: '.' :: '.' :: core else core
  if ce < hay.length then core' ++ ['.', '.', '.'] else core'

/-- A successful `strFind` returns an index that is at least `start`, at most the length of
the haystack, and at which the needle occurs. -/
theorem strFind_some {hay needle : List Char} {start i : Nat}
    (h : strFind hay needle start = some i) :
    start ≤ i ∧ i ≤ hay.length ∧ needle.isPrefixOf (hay.drop i) = true := by
  have hp := List.find?_some h
  have hm := List.mem_of_find?_eq_some h
  rw [List.mem_range] at hm
  simp only [Bool.and_eq_true, decide_eq_true_eq] at hp
  exact ⟨hp.1, Nat.lt_succ_iff.mp hm, hp.2⟩

/-- The `while True` match loop over one page (server.py:130-156).  `hay` is
the page's original text, `hayLower` its lower-cased form, `qLower` the
lower-cased query and `qlen` the original query length; `acc` is the global
results list and `start` the `start_idx` cursor.  The loop breaks when no
further occurrence exists or when `max_results` matches have been collected;
otherwise it resumes at the previous match's start index + 1. -/
def searchPage (hay hayLower qLower : List Char) (qlen pn ctx maxr : Nat)
    (acc : List SMatch) (start : Nat) : List SMatch :=
  match h : strFind hayLower qLower start with
  | none => acc
  | some idx =>
    let acc2 := acc ++ [⟨pn, mkContext hay qlen ctx idx, idx⟩]
    if maxr ≤ acc2.length then acc2
    else searchPage hay hayLower qLower qlen pn ctx maxr acc2 (idx + 1)
termination_by hayLower.length + 1 - start
decreasing_by
  have := strFind_some h
  omega

/-- The `for page_num, page in enumerate(pdf.pages, start=1)` loop of
`search_pdf` (server.py:125-159): pages are scanned in ascending order,
stopping as soon as `max_results` matches have been collected. -/
def searchGo (q qLower : List Char) (ctx maxr : Nat) :
    Nat → List (List Char) → List SMatch → List SMatch
  | _, [], acc => acc
  | pn, hay :: rest, acc =>
    let acc2 := searchPage hay (hay.map Char.toLower) qLower q.length pn ctx maxr acc 0
    if maxr ≤ acc2.length then acc2
    else searchGo q qLower ctx maxr (pn + 1) rest acc2

/-- The result record of `search_pdf` (server.py:161-167). -/
structure SearchOut where
  total_matches : Nat
  results : List SMatch
  truncated : Bool
deriving DecidableEq

/-- Function `search_pdf` (server.py:114-170).  The query is lower-cased once and
searched per page; `truncated` is `len(results) >= max_results`. -/
def search_pdf (fs : Fs) (path : String) (q : List Char) (ctx maxr : Nat) :
    Except String SearchOut :=
  match fs path with
  | none => .error ("File not found: " ++ path)
  | some d =>
    let ms := searchGo q (q.map Char.toLower) ctx maxr 1 d.pages []
    .ok ⟨ms.length, ms, decide (maxr ≤ ms.length)⟩

/-- The summary record of `get_smart_chunks` (server.py:216-223). -/
structure ChunkPlanOut where
  total_pages : Nat
  max_chars_per_chunk : Nat
  overlap_pages : Nat
  total_chunks : Nat
  chunks : List Chunk
deriving DecidableEq

/-- Function `get_smart_chunks` (server.py:173-226), with fuel for the planner loop:
`none` means the loop is still running after `fuel` iterations. -/
def get_smart_chunks (fs : Fs) (path : String) (maxc ov : Nat) (fuel : Nat) :
    Option (Except String ChunkPlanOut) :=
  match fs path with
  | none => some (.error ("File not found: " ++ path))
  | some d =>
    match planLoop (d.pages.map (fun p => p.length)) maxc ov fuel 1 1 [] with
    | none => none
    | some (.error e) => some (.error ("Failed to calculate chunks: " ++ e))
    | some (.ok cs) =>
      some (.ok ⟨d.pages.length, maxc, ov, cs.length, cs⟩)

section ExtractLemmas

/-- With `max_chars` set to a positive value, the truncation test is exactly
the budget comparison. -/
theorem truncCheck_pos {m : Nat} (total len : Nat) (hm : 0 < m) :
    truncCheck (some m) total len = decide (m < total + len) := by
  have he : truncCheck (some m) total len =
      if m = 0 then false else decide (total + len > m) := rfl
  rw [he, if_neg (Nat.pos_iff_ne_zero.mp hm)]

/-- A positive truncation test means `max_chars` is set, nonzero and the
budget is exceeded by this page. -/
theorem truncCheck_true_elim {maxc : Option Nat} {total len : Nat}
    (h : truncCheck maxc total len = true) :
    ∃ m, maxc = some m ∧ 0 < m ∧ m < total + len := by
  cases maxc with
  | none =>
    have he : truncCheck none total len = false := rfl
    rw [he] at h
    cases h
  | some m =>
    have he : truncCheck (some m) total len =
        if m = 0 then false else decide (total + len > m) := rfl
    rw [he] at h
    by_cases hz : m = 0
    · rw [if_pos hz] at h; cases h
    · rw [if_neg hz] at h
      have := of_decide_eq_true h
      exact ⟨m, rfl, by omega, by omega⟩

/-- The extraction loop never adds more than the remaining budget. -/
theorem extractGo_le {m : Nat} (hm : 0 < m) :
    ∀ (l : List (Nat × List Char)) (total : Nat), total ≤ m →
      total + (extractGo (some m) l total).added ≤ m := by
  intro l
  induction l with
  | nil => intro total h; simpa [extractGo] using h
  | cons pt rest ih =>
    intro total h
    obtain ⟨pn, t⟩ := pt
    by_cases hc : truncCheck (some m) total t.length = true
    · simp [extractGo, hc]
      omega
    · rw [Bool.not_eq_true] at hc
      simp only [extractGo, hc, Bool.false_eq_true, if_false]
      rw [truncCheck_pos total t.length hm] at hc
      have hle : total + t.length ≤ m := by
        have := of_decide_eq_false hc
        omega
      have := ih (total + t.length) hle
      omega

/-- The loop reports truncation exactly when the total text of the processed
range would exceed the budget. -/
theorem extractGo_trunc_iff {m : Nat} (hm : 0 < m) :
    ∀ (l : List (Nat × List Char)) (total : Nat), total ≤ m →
      ((extractGo (some m) l total).truncated = true ↔
        m < total + (l.map (fun pt => pt.2.length)).sum) := by
  intro l
  induction l with
  | nil =>
    intro total h
    simp [extractGo]
    omega
  | cons pt rest ih =>
    intro total h
    obtain ⟨pn, t⟩ := pt
    by_cases hc : truncCheck (some m) total t.length = true
    · have hgt : m < total + t.length := by
        obtain ⟨m', hm', _, hlt⟩ := truncCheck_true_elim hc
        injection hm' with he
        omega
      simp [extractGo, hc]
      omega
    · rw [Bool.not_eq_true] at hc
      simp only [extractGo, hc, Bool.false_eq_true, if_false]
      rw [truncCheck_pos total t.length hm] at hc
      have hle : total + t.length ≤ m := by
        have := of_decide_eq_false hc
        omega
      have := ih (total + t.length) hle
      simp only [List.map_cons, List.sum_cons]
      rw [this]
      omega

/-- When the loop truncates, it fills the budget exactly. -/
theorem extractGo_trunc_exact {m : Nat} (hm : 0 < m) :
    ∀ (l : List (Nat × List Char)) (total : Nat), total ≤ m →
      (extractGo (some m) l total).truncated = true →
      total + (extractGo (some m) l total).added = m := by
  intro l
  induction l with
  | nil => intro total h ht; simp [extractGo] at ht
  | cons pt rest ih =>
    intro total h ht
    obtain ⟨pn, t⟩ := pt
    by_cases hc : truncCheck (some m) total t.length = true
    · simp [extractGo, hc]
      omega
    · rw [Bool.not_eq_true] at hc
      simp only [extractGo, hc, Bool.false_eq_true, if_false] at ht ⊢
      rw [truncCheck_pos total t.length hm] at hc
      have hle : total + t.length ≤ m := by
        have := of_decide_eq_false hc
        omega
      have := ih (total + t.length) hle ht
      omega

/-- Field `pages_processed` counts exactly the emitted text blocks, the partially
extracted page included. -/
theorem extractGo_procd_blocks (maxc : Option Nat) :
    ∀ (l : List (Nat × List Char)) (total : Nat),
      (extractGo maxc l total).procd = (extractGo maxc l total).blocks.length := by
  intro l
  induction l with
  | nil => intro total; simp [extractGo]
  | cons pt rest ih =>
    intro total
    obtain ⟨pn, t⟩ := pt
    by_cases hc : truncCheck maxc total t.length = true
    · simp [extractGo, hc]
    · rw [Bool.not_eq_true] at hc
      simp only [extractGo, hc, Bool.false_eq_true, if_false, List.length_cons]
      rw [ih]

/-- The characters counted by the loop are exactly the characters stored in
the blocks (page markers excluded). -/
theorem extractGo_blocks_sum (maxc : Option Nat) :
    ∀ (l : List (Nat × List Char)) (total : Nat),
      ((extractGo maxc l total).blocks.map (fun b => b.content.length)).sum =
        (extractGo maxc l total).added := by
  intro l
  induction l with
  | nil => intro total; simp [extractGo]
  | cons pt rest ih =>
    intro total
    obtain ⟨pn, t⟩ := pt
    by_cases hc : truncCheck maxc total t.length = true
    · obtain ⟨m, hmq, hm0, hlt⟩ := truncCheck_true_elim hc
      subst hmq
      simp [extractGo, hc, List.length_take]
      omega
    · rw [Bool.not_eq_true] at hc
      simp only [extractGo, hc, Bool.false_eq_true, if_false, List.map_cons, List.sum_cons]
      rw [ih]

/-- When the loop truncates, the block list ends with the single `(partial)`
block and every earlier block is a full page. -/
theorem extractGo_trunc_blocks {m : Nat} :
    ∀ (l : List (Nat × List Char)) (total : Nat),
      (extractGo (some m) l total).truncated = true →
      ∃ pre b, (extractGo (some m) l total).blocks = pre ++ [b] ∧ b.cut = true ∧
        ∀ b' ∈ pre, b'.cut = false := by
  intro l
  induction l with
  | nil => intro total ht; simp [extractGo] at ht
  | cons pt rest ih =>
    intro total ht
    obtain ⟨pn, t⟩ := pt
    by_cases hc : truncCheck (some m) total t.length = true
    · refine ⟨[], ⟨pn, true, t.take (m - total)⟩, ?_, rfl, by simp⟩
      simp [extractGo, hc]
    · rw [Bool.not_eq_true] at hc
      simp only [extractGo, hc, Bool.false_eq_true, if_false] at ht ⊢
      obtain ⟨pre, b, hb, hcut, hpre⟩ := ih (total + t.length) ht
      refine ⟨⟨pn, false, t⟩ :: pre, b, ?_, hcut, ?_⟩
      · simp [hb]
      · intro b' hb'
        rcases List.mem_cons.mp hb' with h | h
        · subst h; rfl
        · exact hpre b' h

end ExtractLemmas

/-- A one-page document with text `abc`, used as a concrete instance for the
budgeted-extraction theorem. -/
def docC5w : PdfDocument := ⟨[['a', 'b', 'c']], none, false, 0⟩

/-- A filesystem holding only `docC5w` at `w.pdf`. -/
def fsC5w : Fs := fun p => if p = "w.pdf" then some docC5w else none

/-- The result of extracting `w.pdf` with `max_chars = 2`. -/
def rC5w : ExtractOut :=
  ⟨1, "1-1", 1, 2, [⟨1, true, ['a', 'b']⟩], true,
    some "Text truncated at 2 characters. Use smaller page ranges or increase max_chars."⟩

example : extract_text_from_pages fsC5w "w.pdf" 1 none (some 2) = .ok rC5w := rfl

/-- C5: with `max_chars` set (positive), ranged extraction returns at most
`max_chars` characters of page content (markers excluded), reports
`truncated` exactly when the full requested range's page text exceeds the
budget, attaches a `note` exactly when truncated, and on truncation the block
list ends with the single `(partial)` block — no page after it is processed —
whose cut text fills the budget to exactly `max_chars`. -/
theorem extract_text_budget (fs : Fs) (path : String) (sp : Nat) (epOpt : Option Nat)
    (m : Nat) (d : PdfDocument) (r : ExtractOut)
    (hfs : fs path = some d)
    (hok : extract_text_from_pages fs path sp epOpt (some m) = .ok r)
    (hm : 0 < m) :
    r.text_length_chars ≤ m ∧
    (r.truncated = true ↔
      m < ((pageSlice d.pages sp (effEnd d.pages.length epOpt)).map
            (fun pt => pt.2.length)).sum) ∧
    r.note.isSome = r.truncated ∧
    (r.truncated = true →
      ∃ pre b, r.blocks = pre ++ [b] ∧ b.cut = true ∧ (∀ b' ∈ pre, b'.cut = false) ∧
        (pre.map (fun b' => b'.content.length)).sum + b.content.length = m) := by
  simp only [extract_text_from_pages, hfs] at hok
  by_cases hv : sp < 1 ∨ d.pages.length < sp
  · rw [if_pos hv] at hok
    simp at hok
  · rw [if_neg hv] at hok
    rw [Except.ok.injEq] at hok
    subst hok
    dsimp only
    refine ⟨?_, ?_, ?_, ?_⟩
    · have := extractGo_le hm (pageSlice d.pages sp (effEnd d.pages.length epOpt)) 0
        (by omega)
      omega
    · have := extractGo_trunc_iff hm
        (pageSlice d.pages sp (effEnd d.pages.length epOpt)) 0 (by omega)
      simpa using this
    · cases htr : (extractGo (some m)
          (pageSlice d.pages sp (effEnd d.pages.length epOpt)) 0).truncated <;>
        simp [htr]
    · intro htr
      obtain ⟨pre, b, hb, hcut, hpre⟩ := extractGo_trunc_blocks
        (pageSlice d.pages sp (effEnd d.pages.length epOpt)) 0 htr
      refine ⟨pre, b, hb, hcut, hpre, ?_⟩
      have hsum := extractGo_blocks_sum (some m)
        (pageSlice d.pages sp (effEnd d.pages.length epOpt)) 0
      rw [hb] at hsum
      simp only [List.map_append, List.sum_append, List.map_cons, List.map_nil,
        List.sum_cons, List.sum_nil] at hsum
      have hex := extractGo_trunc_exact hm
        (pageSlice d.pages sp (effEnd d.pages.length epOpt)) 0 (by omega) htr
      omega

/-- Witness for `extract_text_budget` at the concrete document `docC5w` with
`max_chars = 2`. -/
theorem extract_text_budget_witness :
    fsC5w "w.pdf" = some docC5w ∧
    extract_text_from_pages fsC5w "w.pdf" 1 none (some 2) = .ok rC5w ∧
    0 < 2 ∧
    (rC5w.text_length_chars ≤ 2 ∧
     (rC5w.truncated = true ↔
       2 < ((pageSlice docC5w.pages 1 (effEnd docC5w.pages.length none)).map
             (fun pt => pt.2.length)).sum) ∧
     rC5w.note.isSome = rC5w.truncated ∧
     (rC5w.truncated = true →
       ∃ pre b, rC5w.blocks = pre ++ [b] ∧ b.cut = true ∧ (∀ b' ∈ pre, b'.cut = false) ∧
         (pre.map (fun b' => b'.content.length)).sum + b.content.length = 2)) :=
  ⟨rfl, rfl, by decide,
    extract_text_budget fsC5w "w.pdf" 1 none 2 docC5w rC5w rfl rfl (by decide)⟩

/-- A two-page document (`a` / `bc`) for the truncation-count theorem. -/
def docC10w : PdfDocument := ⟨[['a'], ['b', 'c']], none, false, 0⟩

/-- A filesystem holding only `docC10w` at `x.pdf`. -/
def fsC10w : Fs := fun p => if p = "x.pdf" then some docC10w else none

/-- The result of extracting `x.pdf` with `max_chars = 2`. -/
def rC10w : ExtractOut :=
  ⟨2, "1-2", 2, 2, [⟨1, false, ['a']⟩, ⟨2, true, ['b']⟩], true,
    some "Text truncated at 2 characters. Use smaller page ranges or increase max_chars."⟩

example : extract_text_from_pages fsC10w "x.pdf" 1 none (some 2) = .ok rC10w := rfl

/-- C10: when a budgeted extraction truncates, `text_length_chars` equals
`max_chars` exactly, and the partially extracted page is counted in
`pages_processed` (which equals the number of emitted blocks, the final
`(partial)` one included). -/
theorem extract_text_truncation_counts (fs : Fs) (path : String) (sp : Nat)
    (epOpt : Option Nat) (m : Nat) (d : PdfDocument) (r : ExtractOut)
    (hfs : fs path = some d)
    (hok : extract_text_from_pages fs path sp epOpt (some m) = .ok r)
    (hm : 0 < m)
    (htr : r.truncated = true) :
    r.text_length_chars = m ∧ r.pages_processed = r.blocks.length ∧ r.blocks ≠ [] := by
  simp only [extract_text_from_pages, hfs] at hok
  by_cases hv : sp < 1 ∨ d.pages.length < sp
  · rw [if_pos hv] at hok
    simp at hok
  · rw [if_neg hv] at hok
    rw [Except.ok.injEq] at hok
    subst hok
    dsimp only at htr ⊢
    refine ⟨?_, ?_, ?_⟩
    · have := extractGo_trunc_exact hm
        (pageSlice d.pages sp (effEnd d.pages.length epOpt)) 0 (by omega) htr
      omega
    · exact extractGo_procd_blocks (some m)
        (pageSlice d.pages sp (effEnd d.pages.length epOpt)) 0
    · obtain ⟨pre, b, hb, _, _⟩ := extractGo_trunc_blocks
        (pageSlice d.pages sp (effEnd d.pages.length epOpt)) 0 htr
      rw [hb]
      simp

/-- Witness for `extract_text_truncation_counts` at the concrete document
`docC10w` with `max_chars = 2`. -/
theorem extract_text_truncation_counts_witness :
    fsC10w "x.pdf" = some docC10w ∧
    extract_text_from_pages fsC10w "x.pdf" 1 none (some 2) = .ok rC10w ∧
    0 < 2 ∧ rC10w.truncated = true ∧
    (rC10w.text_length_chars = 2 ∧ rC10w.pages_processed = rC10w.blocks.length ∧
      rC10w.blocks ≠ []) :=
  ⟨rfl, rfl, by decide, rfl,
    extract_text_truncation_counts fsC10w "x.pdf" 1 none 2 docC10w rC10w rfl rfl
      (by decide) rfl⟩

section ChunkLemmas

/-- Membership in a Python integer range. -/
theorem intRange_mem {a b i : Int} (h : i ∈ intRange a b) : a ≤ i ∧ i < b := by
  rw [intRange] at h
  rw [List.mem_map] at h
  obtain ⟨k, hk, hke⟩ := h
  rw [List.mem_range] at hk
  subst hke
  have h0 : (0 : Int) ≤ (k : Int) := Int.natCast_nonneg k
  have h2 : (k : Int) < b - a := Int.lt_toNat.mp hk
  omega

/-- The inner scan never moves `end_page` below `current_page` or past
`total_pages`, provided the index list it walks stays inside
`[current_page - 1, total_pages)`. -/
theorem chunkScan_bounds (lens : List Nat) (maxc : Nat) (cp : Int) :
    ∀ (l : List Int) (test : Nat) (ep : Int), cp ≤ ep → ep ≤ (lens.length : Int) →
      (∀ i ∈ l, cp - 1 ≤ i ∧ i < (lens.length : Int)) →
      ∀ t2 e2, chunkScan lens maxc cp l test ep = .ok (t2, e2) →
      cp ≤ e2 ∧ e2 ≤ (lens.length : Int) := by
  intro l
  induction l with
  | nil =>
    intro test ep h1 h2 _ t2 e2 h
    simp only [chunkScan, Except.ok.injEq, Prod.mk.injEq] at h
    omega
  | cons i rest ih =>
    intro test ep h1 h2 hmem t2 e2 h
    rw [chunkScan] at h
    cases hg : pyGet lens i with
    | none => simp [hg] at h
    | some len =>
      simp only [hg] at h
      by_cases hbr : test + len > maxc ∧ ep > cp
      · rw [if_pos hbr] at h
        simp only [Except.ok.injEq, Prod.mk.injEq] at h
        omega
      · rw [if_neg hbr] at h
        have hi := hmem i (List.mem_cons_self i rest)
        exact ih (test + len) (i + 1) (by omega) (by omega)
          (fun j hj => hmem j (List.mem_cons_of_mem i hj)) t2 e2 h

/-- The partial-correctness invariant of the planner loop: whatever fuel and
overlap, if the loop exits normally then the accumulated chunks are numbered
contiguously from 1, each satisfies `start_page ≤ end_page ≤ total_pages`,
and together they cover `[1, total_pages]`. -/
theorem planLoop_inv (lens : List Nat) (maxc ov : Nat) :
    ∀ (fuel : Nat) (cp : Int) (cn : Nat) (acc chunks : List Chunk),
      planLoop lens maxc ov fuel cp cn acc = some (.ok chunks) →
      acc.map Chunk.chunk_number = List.range' 1 acc.length →
      cn = acc.length + 1 →
      (∀ c ∈ acc, c.start_page ≤ c.end_page ∧ c.end_page ≤ (lens.length : Int)) →
      (∀ p : Int, 1 ≤ p → p ≤ cp - 1 →
        ∃ c, c ∈ acc ∧ c.start_page ≤ p ∧ p ≤ c.end_page) →
      (chunks.map Chunk.chunk_number = List.range' 1 chunks.length ∧
       (∀ c ∈ chunks, c.start_page ≤ c.end_page ∧ c.end_page ≤ (lens.length : Int)) ∧
       (∀ p : Int, 1 ≤ p → p ≤ (lens.length : Int) →
         ∃ c, c ∈ chunks ∧ c.start_page ≤ p ∧ p ≤ c.end_page)) := by
  intro fuel
  induction fuel with
  | zero =>
    intro cp cn acc chunks h
    cases h
  | succ n ih =>
    intro cp cn acc chunks h hnum hcn hbnd hcov
    rw [planLoop] at h
    by_cases hg : cp ≤ (lens.length : Int)
    · rw [if_pos hg] at h
      cases hscan : chunkScan lens maxc cp (intRange (cp - 1) (lens.length : Int)) 0 cp with
      | error e => rw [hscan] at h; cases h
      | ok te =>
        obtain ⟨test, ep⟩ := te
        rw [hscan] at h
        have hep : cp ≤ ep ∧ ep ≤ (lens.length : Int) :=
          chunkScan_bounds lens maxc cp _ 0 cp le_rfl hg
            (fun i hi => intRange_mem hi) test ep hscan
        have hnp : nextPage ep ov ≤ ep + 1 := by
          simp only [nextPage]
          split <;> omega
        refine ih (nextPage ep ov) (cn + 1) (acc ++ [⟨cn, cp, ep, test⟩]) chunks h
          ?_ ?_ ?_ ?_
        · rw [List.map_append, List.length_append, hnum]
          simp only [List.map_cons, List.map_nil, List.length_cons, List.length_nil]
          rw [List.range'_concat]
          simp [hcn, Nat.add_comm]
        · simp [hcn]
        · intro c hc
          rcases List.mem_append.mp hc with h' | h'
          · exact hbnd c h'
          · rcases List.mem_singleton.mp h' with rfl
            exact hep
        · intro p hp1 hp2
          by_cases hold : p ≤ cp - 1
          · obtain ⟨c, hc, hcs, hce⟩ := hcov p hp1 hold
            exact ⟨c, List.mem_append_left _ hc, hcs, hce⟩
          · refine ⟨⟨cn, cp, ep, test⟩,
              List.mem_append_right _ (List.mem_singleton_self _), ?_, ?_⟩
            · show cp ≤ p
              omega
            · show p ≤ ep
              omega
    · rw [if_neg hg] at h
      simp only [Option.some.injEq, Except.ok.injEq] at h
      subst h
      refine ⟨hnum, hbnd, ?_⟩
      intro p hp1 hp2
      exact hcov p hp1 (by omega)

end ChunkLemmas

/-- The chunk list the code actually produces on the 10-page example document
with `max_chars_per_chunk = 10000, overlap_pages = 0`. -/
def chunks10code : List Chunk :=
  [⟨1, 1, 2, 12000⟩, ⟨2, 3, 4, 12000⟩, ⟨3, 5, 9, 10000⟩, ⟨4, 10, 10, 1000⟩]

/-- The chunk list the specification requires on that document:
`[1-1],[2-2],[3-3],[4-4],[5-5],[6-10]`. -/
def chunks10spec : List Chunk :=
  [⟨1, 1, 1, 6000⟩, ⟨2, 2, 2, 6000⟩, ⟨3, 3, 3, 6000⟩, ⟨4, 4, 4, 6000⟩,
   ⟨5, 5, 5, 6000⟩, ⟨6, 6, 10, 5000⟩]

/-- C1: on the 10-page example document (pages 1-5 of 6000 characters, pages
6-10 of 1000) with budget 10000 and no overlap, the planner loop returns
`[1-2],[3-4],[5-9],[10-10]` — not the specified `[1-1],...,[6-10]`: because
`end_page` starts at `current_page`, the guard `end_page > current_page` lets
the first **two** pages of every chunk in unconditionally. -/
theorem chunk_plan_example_diverges :
    planLoop lens10 10000 0 20 1 1 [] = some (.ok chunks10code) ∧
    chunks10code ≠ chunks10spec :=
  ⟨rfl, by decide⟩

/-- C2: the same run exhibits a chunk (`[1-2]` with 12000 characters) that
both exceeds `max_chars_per_chunk = 10000` and spans more than one page,
refuting "each chunk fits the budget or is a single page". -/
theorem chunk_budget_violated :
    planLoop lens10 10000 0 20 1 1 [] = some (.ok chunks10code) ∧
    ¬ (∀ c ∈ chunks10code, c.estimated_chars ≤ 10000 ∨ c.start_page = c.end_page) :=
  ⟨rfl, by decide⟩

/-- The safeguard branch of the advance step never fires:
`end_page + 1 - overlap ≤ end_page - overlap` is always false, so the next
start page is always `end_page + 1 - overlap_pages`. -/
theorem nextPage_eq (ep : Int) (ov : Nat) : nextPage ep ov = ep + 1 - (ov : Int) := by
  show (if ep + 1 - (ov : Int) ≤ ep - (ov : Int) then ep + 1 else ep + 1 - (ov : Int)) =
    ep + 1 - (ov : Int)
  rw [if_neg (by omega)]

/-- Inside the overlap-2 run on a one-page blank document the loop reaches
`current_page = 0` and stays there forever. -/
theorem planLoop_ov2_cp0 : ∀ (fuel cn : Nat) (acc : List Chunk),
    planLoop [0] 10 2 fuel 0 cn acc = none := by
  intro fuel
  induction fuel with
  | zero => intro cn acc; rfl
  | succ n ih =>
    intro cn acc
    rw [planLoop]
    rw [if_pos (by decide)]
    have hscan : chunkScan [0] 10 0 (intRange (0 - 1) ((List.length ([0] : List Nat) : Int))) 0 0 =
        .ok (0, 1) := rfl
    rw [hscan]
    exact ih (cn + 1) (acc ++ [⟨cn, 0, 1, 0⟩])

/-- C3: the advance safeguard is dead code, so the claimed clamped advance
does not happen.  After the chunk `[1-1]` with `overlap_pages = 2` (overlap ≥
chunk length) the next start page is `0`, not `2`, and on a one-page blank
document the planner loop never terminates whatever the fuel. -/
theorem chunk_advance_not_clamped :
    (∀ (ep : Int) (ov : Nat), nextPage ep ov = ep + 1 - (ov : Int)) ∧
    nextPage 1 2 = 0 ∧
    (∀ fuel : Nat, planLoop [0] 10 2 fuel 1 1 [] = none) := by
  refine ⟨nextPage_eq, by decide, ?_⟩
  intro fuel
  cases fuel with
  | zero => rfl
  | succ n =>
    rw [planLoop]
    rw [if_pos (by decide)]
    have hscan : chunkScan [0] 10 1 (intRange (1 - 1) ((List.length ([0] : List Nat) : Int))) 0 1 =
        .ok (0, 1) := rfl
    rw [hscan]
    exact planLoop_ov2_cp0 n 2 [⟨1, 1, 1, 0⟩]

/-- C4: whenever the planner loop does return a chunk list, that list is
numbered contiguously 1..N, every chunk satisfies
`start_page ≤ end_page ≤ total_pages`, and the chunks cover every page of
`[1, total_pages]`; a document with no pages yields the empty chunk list, not
an error. -/
theorem plan_chunks_invariants :
    (∀ (lens : List Nat) (maxc ov fuel : Nat) (chunks : List Chunk),
      planLoop lens maxc ov fuel 1 1 [] = some (.ok chunks) →
      (chunks.map Chunk.chunk_number = List.range' 1 chunks.length ∧
       (∀ c ∈ chunks, c.start_page ≤ c.end_page ∧ c.end_page ≤ (lens.length : Int)) ∧
       (∀ p : Int, 1 ≤ p → p ≤ (lens.length : Int) →
         ∃ c, c ∈ chunks ∧ c.start_page ≤ p ∧ p ≤ c.end_page))) ∧
    (∀ maxc ov fuel : Nat, planLoop [] maxc ov (fuel + 1) 1 1 [] = some (.ok [])) := by
  constructor
  · intro lens maxc ov fuel chunks h
    refine planLoop_inv lens maxc ov fuel 1 1 [] chunks h rfl rfl (by simp) ?_
    intro p h1 h2
    omega
  · intro maxc ov fuel
    rw [planLoop]
    rw [if_neg (by decide)]

/-- Witness for `plan_chunks_invariants` at the 10-page example document. -/
theorem plan_chunks_invariants_witness :
    planLoop lens10 10000 0 20 1 1 [] = some (.ok chunks10code) ∧
    (chunks10code.map Chunk.chunk_number = List.range' 1 chunks10code.length ∧
     (∀ c ∈ chunks10code, c.start_page ≤ c.end_page ∧ c.end_page ≤ (lens10.length : Int)) ∧
     (∀ p : Int, 1 ≤ p → p ≤ (lens10.length : Int) →
       ∃ c, c ∈ chunks10code ∧ c.start_page ≤ p ∧ p ≤ c.end_page)) :=
  ⟨rfl, plan_chunks_invariants.1 lens10 10000 0 20 chunks10code rfl⟩

/-- The filesystem with no documents at all. -/
def fsMissing : Fs := fun _ => none

/-- A one-page blank document. -/
def docOne : PdfDocument := ⟨[[]], none, false, 0⟩

/-- A filesystem holding only `docOne` at `one.pdf`. -/
def fsOne : Fs := fun p => if p = "one.pdf" then some docOne else none

/-- With `overlap_pages = 1` the loop advance is `current_page = end_page`,
which never exceeds `total_pages`: on a one-page blank document the loop
re-emits the final chunk forever. -/
theorem planLoop_one_page_ov1 : ∀ (fuel cn : Nat) (acc : List Chunk),
    planLoop [0] 50000 1 fuel 1 cn acc = none := by
  intro fuel
  induction fuel with
  | zero => intro cn acc; rfl
  | succ n ih =>
    intro cn acc
    rw [planLoop]
    rw [if_pos (by decide)]
    have hscan : chunkScan [0] 50000 1
        (intRange (1 - 1) ((List.length ([0] : List Nat) : Int))) 0 1 = .ok (0, 1) := rfl
    rw [hscan]
    exact ih (cn + 1) (acc ++ [⟨cn, 1, 1, 0⟩])

/-- C7: every operation turns a missing path into a `File not found` error
result — but `get_smart_chunks` with the default `overlap_pages = 1` on an
existing one-page document returns neither a payload nor an error: the loop
runs forever (`none` for every fuel), contradicting "always returns payload
or error". -/
theorem ops_error_results_and_chunks_hang :
    get_pdf_metadata fsMissing "missing.pdf" = .error "File not found: missing.pdf" ∧
    extract_text_from_pages fsMissing "missing.pdf" 1 none none =
      .error "File not found: missing.pdf" ∧
    search_pdf fsMissing "missing.pdf" ['a'] 200 50 =
      .error "File not found: missing.pdf" ∧
    get_smart_chunks fsMissing "missing.pdf" 50000 1 0 =
      some (.error "File not found: missing.pdf") ∧
    (∀ fuel : Nat, get_smart_chunks fsOne "one.pdf" 50000 1 fuel = none) := by
  refine ⟨rfl, rfl, rfl, rfl, ?_⟩
  intro fuel
  have hfs : fsOne "one.pdf" = some docOne := rfl
  simp only [get_smart_chunks, hfs]
  have hlens : docOne.pages.map (fun p => p.length) = [0] := rfl
  rw [hlens, planLoop_one_page_ov1 fuel 1 []]

/-- A document whose metadata dictionary declares only `/Title`. -/
def docC8 : PdfDocument := ⟨[[]], some [("/Title", "T")], false, 5⟩

/-- A filesystem holding only `docC8` at `c8.pdf`. -/
def fsC8 : Fs := fun p => if p = "c8.pdf" then some docC8 else none

/-- The metadata result the code produces for `docC8`. -/
def rC8 : MetaResult := ⟨5, 1, false, some "T", some "", some "", some ""⟩

/-- C8 is false as stated: for a document that declares a title but no
author, the result still carries an `author` field (the empty string), because
`reader.metadata.get(key, "")` is stored for all four keys whenever the
metadata dictionary is truthy. -/
theorem metadata_author_filled_when_undeclared :
    (docC8.meta.getD []).lookup "/Author" = none ∧
    get_pdf_metadata fsC8 "c8.pdf" = .ok rC8 ∧
    rC8.author = some "" :=
  ⟨rfl, rfl, rfl⟩

/-- C8 amended: the four optional fields are all present exactly when the
metadata dictionary is truthy (non-`None` and non-empty), each holding the
declared value or the empty-string default; all four are absent otherwise. -/
theorem metadata_fields_follow_dict (fs : Fs) (path : String) (d : PdfDocument)
    (r : MetaResult) (hfs : fs path = some d)
    (hok : get_pdf_metadata fs path = .ok r) :
    (r.title.isSome = metaTruthy d.meta ∧ r.author.isSome = metaTruthy d.meta ∧
     r.subject.isSome = metaTruthy d.meta ∧ r.creator.isSome = metaTruthy d.meta) ∧
    (metaTruthy d.meta = true →
      r.title = some (metaGet (d.meta.getD []) "/Title") ∧
      r.author = some (metaGet (d.meta.getD []) "/Author") ∧
      r.subject = some (metaGet (d.meta.getD []) "/Subject") ∧
      r.creator = some (metaGet (d.meta.getD []) "/Creator")) := by
  simp only [get_pdf_metadata, hfs] at hok
  by_cases ht : metaTruthy d.meta = true
  · rw [if_pos ht] at hok
    rw [Except.ok.injEq] at hok
    subst hok
    simp [ht]
  · rw [Bool.not_eq_true] at ht
    rw [if_neg (by simp [ht])] at hok
    rw [Except.ok.injEq] at hok
    subst hok
    simp [ht]

/-- Witness for `metadata_fields_follow_dict` at the concrete `docC8`. -/
theorem metadata_fields_follow_dict_witness :
    fsC8 "c8.pdf" = some docC8 ∧
    get_pdf_metadata fsC8 "c8.pdf" = .ok rC8 ∧
    ((rC8.title.isSome = metaTruthy docC8.meta ∧
      rC8.author.isSome = metaTruthy docC8.meta ∧
      rC8.subject.isSome = metaTruthy docC8.meta ∧
      rC8.creator.isSome = metaTruthy docC8.meta) ∧
     (metaTruthy docC8.meta = true →
       rC8.title = some (metaGet (docC8.meta.getD []) "/Title") ∧
       rC8.author = some (metaGet (docC8.meta.getD []) "/Author") ∧
       rC8.subject = some (metaGet (docC8.meta.getD []) "/Subject") ∧
       rC8.creator = some (metaGet (docC8.meta.getD []) "/Creator"))) :=
  ⟨rfl, rfl, metadata_fields_follow_dict fsC8 "c8.pdf" docC8 rC8 rfl rfl⟩

section SearchLemmas

/-- Python `find` from a start index past the end of the haystack finds nothing. -/
theorem strFind_none {hay needle : List Char} {start : Nat}
    (h : hay.length < start) : strFind hay needle start = none := by
  rw [strFind]
  apply List.find?_eq_none.mpr
  intro i hi
  rw [List.mem_range] at hi
  simp only [Bool.and_eq_true, decide_eq_true_eq, not_and]
  intro hsi
  omega

/-- One page's match loop appends some tail of new matches: each is on this
page, at or after the scan start, at a true occurrence of the query; their
positions strictly increase; and the global `max_results` cap is respected. -/
theorem searchPage_spec (hay hayLower qLower : List Char) (qlen pn ctx maxr : Nat) :
    ∀ (n start : Nat) (acc : List SMatch), hayLower.length + 1 - start ≤ n →
      ∃ new, searchPage hay hayLower qLower qlen pn ctx maxr acc start = acc ++ new ∧
        (∀ sm ∈ new, sm.page = pn ∧ start ≤ sm.position ∧
          qLower.isPrefixOf (hayLower.drop sm.position) = true) ∧
        List.Pairwise (fun a b : SMatch => a.position < b.position) new ∧
        (acc.length < maxr → acc.length + new.length ≤ maxr) := by
  intro n
  induction n with
  | zero =>
    intro start acc hle
    refine ⟨[], ?_, by simp, by simp, by intro h; simp; omega⟩
    rw [searchPage.eq_def]
    split
    · simp
    · next idx heq =>
      rw [strFind_none (by omega)] at heq
      cases heq
  | succ n ih =>
    intro start acc hle
    rw [searchPage.eq_def]
    split
    · next heq => exact ⟨[], by simp, by simp, by simp, by intro h; simp; omega⟩
    · next idx heq =>
      obtain ⟨hsi, hil, hpref⟩ := strFind_some heq
      dsimp only
      by_cases hstop : maxr ≤ (acc ++ [(⟨pn, mkContext hay qlen ctx idx, idx⟩ : SMatch)]).length
      · rw [if_pos hstop]
        refine ⟨[⟨pn, mkContext hay qlen ctx idx, idx⟩], rfl, ?_, by simp, ?_⟩
        · intro sm hsm
          rcases List.mem_singleton.mp hsm with rfl
          exact ⟨rfl, hsi, hpref⟩
        · intro hlt
          simp only [List.length_append, List.length_singleton] at hstop ⊢
          omega
      · rw [if_neg hstop]
        obtain ⟨new', hout, hmem, hpair, hbud⟩ :=
          ih (idx + 1) (acc ++ [⟨pn, mkContext hay qlen ctx idx, idx⟩]) (by omega)
        refine ⟨⟨pn, mkContext hay qlen ctx idx, idx⟩ :: new', ?_, ?_, ?_, ?_⟩
        · rw [hout]
          simp
        · intro sm hsm
          rcases List.mem_cons.mp hsm with rfl | hsm'
          · exact ⟨rfl, hsi, hpref⟩
          · obtain ⟨h1, h2, h3⟩ := hmem sm hsm'
            exact ⟨h1, by omega, h3⟩
        · rw [List.pairwise_cons]
          refine ⟨?_, hpair⟩
          intro sm hsm
          have h2 := (hmem sm hsm).2.1
          show idx < sm.position
          omega
        · intro hlt
          have hlt2 : (acc ++ [(⟨pn, mkContext hay qlen ctx idx, idx⟩ : SMatch)]).length < maxr := by
            simp only [List.length_append, List.length_singleton]
            simp only [List.length_append, List.length_singleton] at hstop
            omega
          have := hbud hlt2
          simp only [List.length_append, List.length_singleton, List.length_cons] at this ⊢
          omega

/-- The page loop of `search_pdf` appends matches in ascending page order:
each new match is a true case-insensitive occurrence on one of the scanned
pages, match order is ascending by page and then by position, and the
`max_results` cap is respected. -/
theorem searchGo_spec (q qLower : List Char) (ctx maxr : Nat) :
    ∀ (l : List (List Char)) (pn : Nat) (acc : List SMatch),
      ∃ new, searchGo q qLower ctx maxr pn l acc = acc ++ new ∧
        (∀ sm ∈ new, ∃ k hay, l.get? k = some hay ∧ sm.page = pn + k ∧
          qLower.isPrefixOf ((hay.map Char.toLower).drop sm.position) = true) ∧
        List.Pairwise (fun a b : SMatch =>
          a.page < b.page ∨ (a.page = b.page ∧ a.position < b.position)) new ∧
        (∀ sm ∈ new, pn ≤ sm.page) ∧
        (acc.length < maxr → acc.length + new.length ≤ maxr) := by
  intro l
  induction l with
  | nil =>
    intro pn acc
    exact ⟨[], by simp [searchGo], by simp, by simp, by simp, by intro h; simp; omega⟩
  | cons hay rest ih =>
    intro pn acc
    obtain ⟨new1, hout1, hmem1, hpair1, hbud1⟩ :=
      searchPage_spec hay (hay.map Char.toLower) qLower q.length pn ctx maxr
        ((hay.map Char.toLower).length + 1) 0 acc (by omega)
    have hpw1 : List.Pairwise (fun a b : SMatch =>
        a.page < b.page ∨ (a.page = b.page ∧ a.position < b.position)) new1 := by
      refine List.Pairwise.imp_of_mem ?_ hpair1
      intro a b ha hb hlt
      right
      exact ⟨by rw [(hmem1 a ha).1, (hmem1 b hb).1], hlt⟩
    rw [searchGo]
    rw [hout1]
    by_cases hstop : maxr ≤ (acc ++ new1).length
    · rw [if_pos hstop]
      refine ⟨new1, rfl, ?_, hpw1, ?_, hbud1⟩
      · intro sm hsm
        obtain ⟨hpage, _, hpref⟩ := hmem1 sm hsm
        exact ⟨0, hay, rfl, by omega, hpref⟩
      · intro sm hsm
        rw [(hmem1 sm hsm).1]
    · rw [if_neg hstop]
      obtain ⟨new2, hout2, hmem2, hpair2, hpn2, hbud2⟩ := ih (pn + 1) (acc ++ new1)
      refine ⟨new1 ++ new2, ?_, ?_, ?_, ?_, ?_⟩
      · rw [hout2]
        simp
      · intro sm hsm
        rcases List.mem_append.mp hsm with h' | h'
        · obtain ⟨hpage, _, hpref⟩ := hmem1 sm h'
          exact ⟨0, hay, rfl, by omega, hpref⟩
        · obtain ⟨k, hay', hget, hpage, hpref⟩ := hmem2 sm h'
          exact ⟨k + 1, hay', by simpa using hget, by omega, hpref⟩
      · rw [List.pairwise_append]
        refine ⟨hpw1, hpair2, ?_⟩
        intro a ha b hb
        left
        have h1 : a.page = pn := (hmem1 a ha).1
        have h2 : pn + 1 ≤ b.page := hpn2 b hb
        omega
      · intro sm hsm
        rcases List.mem_append.mp hsm with h' | h'
        · rw [(hmem1 sm h').1]
        · have := hpn2 sm h'
          omega
      · intro hlt
        have hl1 : (acc ++ new1).length < maxr := by
          simp only [List.length_append] at hstop ⊢
          omega
        have := hbud2 hl1
        simp only [List.length_append] at this ⊢
        omega

/-- When an occurrence exists, the page loop appends the corresponding match
first and then some tail. -/
theorem searchPage_cons (hay hayLower qLower : List Char) (qlen pn ctx maxr : Nat)
    (acc : List SMatch) (start idx : Nat)
    (hf : strFind hayLower qLower start = some idx) :
    ∃ t, searchPage hay hayLower qLower qlen pn ctx maxr acc start =
      acc ++ [⟨pn, mkContext hay qlen ctx idx, idx⟩] ++ t := by
  rw [searchPage.eq_def]
  split
  · next heq =>
    rw [hf] at heq
    cases heq
  · next idx' heq =>
    rw [hf] at heq
    injection heq with h
    subst h
    dsimp only
    by_cases hstop : maxr ≤ (acc ++ [(⟨pn, mkContext hay qlen ctx idx, idx⟩ : SMatch)]).length
    · rw [if_pos hstop]
      exact ⟨[], by simp⟩
    · rw [if_neg hstop]
      obtain ⟨new', hout, _, _, _⟩ := searchPage_spec hay hayLower qLower qlen pn ctx maxr
        (hayLower.length + 1) (idx + 1)
        (acc ++ [⟨pn, mkContext hay qlen ctx idx, idx⟩]) (by omega)
      exact ⟨new', by rw [hout]⟩

/-- The page loop only ever appends to the results it was given. -/
theorem searchGo_append (q qLower : List Char) (ctx maxr : Nat) (l : List (List Char))
    (pn : Nat) (acc : List SMatch) :
    ∃ t, searchGo q qLower ctx maxr pn l acc = acc ++ t := by
  obtain ⟨new, hout, _⟩ := searchGo_spec q qLower ctx maxr l pn acc
  exact ⟨new, hout⟩

/-- Unfolding step of the match loop when no further occurrence exists. -/
theorem searchPage_step_none {hay hayLower qLower : List Char} {qlen pn ctx maxr : Nat}
    {acc : List SMatch} {start : Nat}
    (h : strFind hayLower qLower start = none) :
    searchPage hay hayLower qLower qlen pn ctx maxr acc start = acc := by
  rw [searchPage.eq_def]
  split
  · rfl
  · next idx heq =>
    rw [h] at heq
    cases heq

/-- Unfolding step of the match loop at the next occurrence `idx`. -/
theorem searchPage_step_some {hay hayLower qLower : List Char} {qlen pn ctx maxr : Nat}
    {acc : List SMatch} {start idx : Nat}
    (h : strFind hayLower qLower start = some idx) :
    searchPage hay hayLower qLower qlen pn ctx maxr acc start =
      (if maxr ≤ (acc ++ [(⟨pn, mkContext hay qlen ctx idx, idx⟩ : SMatch)]).length
       then acc ++ [⟨pn, mkContext hay qlen ctx idx, idx⟩]
       else searchPage hay hayLower qLower qlen pn ctx maxr
         (acc ++ [⟨pn, mkContext hay qlen ctx idx, idx⟩]) (idx + 1)) := by
  rw [searchPage.eq_def]
  split
  · next heq =>
    rw [h] at heq
    cases heq
  · next idx' heq =>
    rw [h] at heq
    injection heq with he
    subst he
    rfl

end SearchLemmas

/-- A three-page document whose only (case-insensitive) occurrence of `q` is
on page 3 at offset 2. -/
def docC6 : PdfDocument :=
  ⟨[['a', 'b'], ['c', 'd'], ['x', 'y', 'q', 'z']], none, false, 0⟩

/-- A filesystem holding only `docC6` at `c6.pdf`. -/
def fsC6 : Fs := fun p => if p = "c6.pdf" then some docC6 else none

/-- The search result the code produces for query `Q` on `docC6`. -/
def rC6 : SearchOut := ⟨1, [⟨3, ['x', 'y', 'q', 'z'], 2⟩], false⟩

/-- C6: every reported match is a true case-insensitive occurrence of the
query at the reported character offset of the reported 1-based page; the
match list is ascending by page, then by position (the scan resumes at the
previous match's start + 1); at most `max_results` matches are collected and
`truncated` is set exactly when that cap was reached.  In particular, a query
occurring exactly once — on page 3 at offset 2 of `docC6` — yields exactly
one match with `page = 3` and `position = 2`. -/
theorem search_pdf_correct :
    (∀ (fs : Fs) (path : String) (d : PdfDocument) (q : List Char) (ctx maxr : Nat)
       (r : SearchOut),
      fs path = some d →
      search_pdf fs path q ctx maxr = .ok r →
      1 ≤ maxr →
      ((∀ sm ∈ r.results, ∃ hay, d.pages.get? (sm.page - 1) = some hay ∧ 1 ≤ sm.page ∧
          (q.map Char.toLower).isPrefixOf ((hay.map Char.toLower).drop sm.position) = true) ∧
       r.results.length ≤ maxr ∧
       (r.truncated = true ↔ r.results.length = maxr) ∧
       List.Pairwise (fun a b : SMatch =>
         a.page < b.page ∨ (a.page = b.page ∧ a.position < b.position)) r.results)) ∧
    search_pdf fsC6 "c6.pdf" ['Q'] 200 50 = .ok rC6 := by
  constructor
  · intro fs path d q ctx maxr r hfs hok hmr
    simp only [search_pdf, hfs] at hok
    rw [Except.ok.injEq] at hok
    subst hok
    obtain ⟨new, hout, hmem, hpair, hpn, hbud⟩ :=
      searchGo_spec q (q.map Char.toLower) ctx maxr d.pages 1 []
    rw [List.nil_append] at hout
    dsimp only
    rw [hout]
    have hlen : new.length ≤ maxr := by
      have := hbud (by simpa using hmr)
      simpa using this
    refine ⟨?_, hlen, ?_, hpair⟩
    · intro sm hsm
      obtain ⟨k, hay, hget, hpage, hpref⟩ := hmem sm hsm
      refine ⟨hay, ?_, by omega, hpref⟩
      rw [hpage]
      simpa using hget
    · rw [decide_eq_true_eq]
      constructor
      · intro h
        omega
      · intro h
        omega
  · have hfs : fsC6 "c6.pdf" = some docC6 := rfl
    have hp3 : searchPage ['x', 'y', 'q', 'z'] (List.map Char.toLower ['x', 'y', 'q', 'z'])
        (List.map Char.toLower ['Q']) (List.length ['Q']) (1 + 1 + 1) 200 50 [] 0 =
        [⟨1 + 1 + 1, mkContext ['x', 'y', 'q', 'z'] (List.length ['Q']) 200 2, 2⟩] := by
      rw [searchPage_step_some (show strFind (List.map Char.toLower ['x', 'y', 'q', 'z'])
        (List.map Char.toLower ['Q']) 0 = some 2 from rfl)]
      rw [if_neg (by decide)]
      rw [searchPage_step_none (show strFind (List.map Char.toLower ['x', 'y', 'q', 'z'])
        (List.map Char.toLower ['Q']) (2 + 1) = none from rfl)]
      simp
    simp only [search_pdf, hfs, docC6]
    rw [searchGo]
    rw [searchPage_step_none (show strFind (List.map Char.toLower ['a', 'b'])
      (List.map Char.toLower ['Q']) 0 = none from rfl)]
    rw [if_neg (by decide)]
    rw [searchGo]
    rw [searchPage_step_none (show strFind (List.map Char.toLower ['c', 'd'])
      (List.map Char.toLower ['Q']) 0 = none from rfl)]
    rw [if_neg (by decide)]
    rw [searchGo]
    rw [hp3]
    rw [if_neg (by decide)]
    rw [searchGo]
    rfl

/-- Witness for `search_pdf_correct` at the concrete single-occurrence
document `docC6`. -/
theorem search_pdf_correct_witness :
    fsC6 "c6.pdf" = some docC6 ∧
    search_pdf fsC6 "c6.pdf" ['Q'] 200 50 = .ok rC6 ∧
    1 ≤ 50 ∧
    ((∀ sm ∈ rC6.results, ∃ hay, docC6.pages.get? (sm.page - 1) = some hay ∧ 1 ≤ sm.page ∧
        ((['Q'] : List Char).map Char.toLower).isPrefixOf
          ((hay.map Char.toLower).drop sm.position) = true) ∧
     rC6.results.length ≤ 50 ∧
     (rC6.truncated = true ↔ rC6.results.length = 50) ∧
     List.Pairwise (fun a b : SMatch =>
       a.page < b.page ∨ (a.page = b.page ∧ a.position < b.position)) rC6.results) :=
  ⟨rfl, search_pdf_correct.2, by decide,
    search_pdf_correct.1 fsC6 "c6.pdf" docC6 ['Q'] 200 50 rC6 rfl
      search_pdf_correct.2 (by decide)⟩

/-- A one-page document with text `ab`. -/
def docC9 : PdfDocument := ⟨[['a', 'b']], none, false, 0⟩

/-- A filesystem holding only `docC9` at `c9.pdf`. -/
def fsC9 : Fs := fun p => if p = "c9.pdf" then some docC9 else none

/-- C9 is false as stated: an empty query is not rejected with an error.
Python's `find("", i)` matches at every index, so the code returns one match
per character offset of the page (end offset included) — here three matches —
rather than an `InvalidQueryError` result. -/
theorem search_empty_query_not_rejected :
    search_pdf fsC9 "c9.pdf" [] 200 50 =
      .ok ⟨3, [⟨1, ['a', 'b'], 0⟩, ⟨1, ['a', 'b'], 1⟩, ⟨1, ['a', 'b'], 2⟩], false⟩ := by
  have hfs : fsC9 "c9.pdf" = some docC9 := rfl
  have hp1 : searchPage ['a', 'b'] (List.map Char.toLower ['a', 'b'])
      (List.map Char.toLower []) (List.length ([] : List Char)) 1 200 50 [] 0 =
      [⟨1, mkContext ['a', 'b'] (List.length ([] : List Char)) 200 0, 0⟩,
       ⟨1, mkContext ['a', 'b'] (List.length ([] : List Char)) 200 1, 1⟩,
       ⟨1, mkContext ['a', 'b'] (List.length ([] : List Char)) 200 2, 2⟩] := by
    rw [searchPage_step_some (show strFind (List.map Char.toLower ['a', 'b'])
      (List.map Char.toLower []) 0 = some 0 from rfl)]
    rw [if_neg (by decide)]
    rw [searchPage_step_some (show strFind (List.map Char.toLower ['a', 'b'])
      (List.map Char.toLower []) (0 + 1) = some 1 from rfl)]
    rw [if_neg (by decide)]
    rw [searchPage_step_some (show strFind (List.map Char.toLower ['a', 'b'])
      (List.map Char.toLower []) (1 + 1) = some 2 from rfl)]
    rw [if_neg (by decide)]
    rw [searchPage_step_none (show strFind (List.map Char.toLower ['a', 'b'])
      (List.map Char.toLower []) (2 + 1) = none from rfl)]
    simp
  simp only [search_pdf, hfs, docC9]
  rw [searchGo]
  rw [hp1]
  rw [if_neg (by decide)]
  rw [searchGo]
  rfl

/-- C9 amended: searching for the empty query does not fail; it returns a
normal result whose first match is at page 1, offset 0 (the empty query
matches at every scan position). -/
theorem search_empty_query_matches (fs : Fs) (path : String) (d : PdfDocument)
    (hay : List Char) (rest : List (List Char)) (ctx maxr : Nat)
    (hfs : fs path = some d) (hpages : d.pages = hay :: rest) :
    ∃ r, search_pdf fs path [] ctx maxr = .ok r ∧
      r.results.head? = some ⟨1, mkContext hay 0 ctx 0, 0⟩ := by
  simp only [search_pdf, hfs, hpages, List.map_nil, List.length_nil]
  refine ⟨_, rfl, ?_⟩
  dsimp only
  have hf : strFind (hay.map Char.toLower) [] 0 = some 0 := by
    rw [strFind, List.range_succ_eq_map]
    exact List.find?_cons_of_pos _ (by simp [List.isPrefixOf])
  obtain ⟨t, ht⟩ := searchPage_cons hay (hay.map Char.toLower) [] 0 1 ctx maxr [] 0 0 hf
  rw [searchGo]
  simp only [List.length_nil]
  rw [ht]
  simp only [List.nil_append, List.singleton_append]
  by_cases hstop : maxr ≤ ((⟨1, mkContext hay 0 ctx 0, 0⟩ : SMatch) :: t).length
  · rw [if_pos hstop]
    rfl
  · rw [if_neg hstop]
    obtain ⟨t2, ht2⟩ := searchGo_append [] [] ctx maxr rest (1 + 1)
      (⟨1, mkContext hay 0 ctx 0, 0⟩ :: t)
    rw [ht2]
    rfl

/-- Witness for `search_empty_query_matches` at the concrete document
`docC9`. -/
theorem search_empty_query_matches_witness :
    fsC9 "c9.pdf" = some docC9 ∧
    docC9.pages = ['a', 'b'] :: [] ∧
    (∃ r, search_pdf fsC9 "c9.pdf" [] 200 50 = .ok r ∧
      r.results.head? = some ⟨1, mkContext ['a', 'b'] 0 200 0, 0⟩) :=
  ⟨rfl, rfl, search_empty_query_matches fsC9 "c9.pdf" docC9 ['a', 'b'] [] 200 50 rfl rfl⟩

end PdfServer
